import Mathlib

/-
Shallow embedding of `src/Maya_adjustment_blending.py` (adjustment blending
for Maya animation layers).  Times and curve values are modelled as exact
rationals; Maya scene state (layers, curve evaluation, characters) is passed
explicitly as parameters.  Curve evaluation `cmds.keyframe(obj, q=1, eval=1,
time=(t, t))[0]` becomes a function `ℚ → ℚ` (one such function per preferred
layer: `evalBase` for the root layer, `evalPose` for the pose layer).
-/

namespace MayaAdjustmentBlending

/-- A key pair `[start_key_time, stop_key_time, start_key_value,
stop_key_value]` as assembled by `get_key_pairs_from_keys` (source lines
26-33). -/
structure KeyPair where
  start_time : ℚ
  stop_time : ℚ
  start_value : ℚ
  stop_value : ℚ
deriving DecidableEq

/-- Embedding of `get_key_pairs_from_keys` (source lines 21-33): for
`i in range(len(keys) - 1)` build the pair of consecutive key times
together with the curve value evaluated at each of the two times.
`evalPose` stands for the keyframe evaluation query, made while the pose
layer is preferred (the caller at source line 104 sets the pose layer
preferred before reading the keys and building the pairs). -/
def get_key_pairs_from_keys (evalPose : ℚ → ℚ) (keys : List ℚ) : List KeyPair :=
  (keys.zip keys.tail).map fun p => ⟨p.1, p.2, evalPose p.1, evalPose p.2⟩

/-- The sampling loop of `evaluate_key_values_for_key_pair_timespan`
(source lines 56-60): `while not current > stop_time:` sample the curve at
`current`, append `[current, value]`, then `current += 0.2`.  The Python
float literal `0.2` is modelled as the exact rational `1/5`. -/
def span_loop (evalBase : ℚ → ℚ) (stop_time : ℚ) (current : ℚ) : List (ℚ × ℚ) :=
  if h : current > stop_time then []
  else (current, evalBase current) :: span_loop evalBase stop_time (current + 1/5)
termination_by (⌊(stop_time - current) * 5 + 1⌋).toNat
decreasing_by
  simp only [gt_iff_lt, not_lt] at h
  have h1 : (stop_time - (current + 1/5)) * 5 + 1
      = ((stop_time - current) * 5 + 1) - 1 := by ring
  rw [h1, Int.floor_sub_one]
  have h5 : (0:ℚ) ≤ (stop_time - current) * 5 :=
    mul_nonneg (sub_nonneg.mpr h) (by norm_num)
  have h2 : (1:ℤ) ≤ ⌊(stop_time - current) * 5 + 1⌋ := by
    rw [Int.le_floor]
    push_cast
    linarith [h5]
  omega

/-- Embedding of `evaluate_key_values_for_key_pair_timespan` (source lines
49-61): read the per-frame values of the base-layer curve across the key
pair's timespan.  (The preferred-layer bookkeeping of source lines 54-55 is
reflected in `evalBase` being the root-layer-preferred evaluator.) -/
def evaluate_key_values_for_key_pair_timespan (evalBase : ℚ → ℚ)
    (start_time stop_time : ℚ) : List (ℚ × ℚ) :=
  span_loop evalBase stop_time start_time

/-- The `change_values` list of `get_change_values_frac` (source lines
80-84): `[0.0]` followed by `abs(span_values[i+1][1] - span_values[i][1])`
for each consecutive pair of span samples. -/
def change_values (span_values : List (ℚ × ℚ)) : List ℚ :=
  0 :: (span_values.zip span_values.tail).map fun p => |p.2.2 - p.1.2|

/-- Embedding of `get_change_values_frac` (source lines 76-90): returns the
`frac_values` list (pairs `[time, change/total]`, appended only when
`total_base_layer_change != 0`) together with `total_base_layer_change`. -/
def get_change_values_frac (span_values : List (ℚ × ℚ)) :
    List (ℚ × ℚ) × ℚ :=
  (if (change_values span_values).sum ≠ 0 then
    (span_values.zip (change_values span_values)).map
      fun p => (p.1.1, p.2 / (change_values span_values).sum)
  else [],
  (change_values span_values).sum)

/-- One `cmds.animLayer(item, e=1, preferred=...)` edit from
`set_layer_as_preferred` (source lines 69-73), acting on the scene's
preferred-flag state (a map from layer name to its `preferred` flag). -/
def apply_pref (layer : String) (st : String → ℕ) (item : String) :
    String → ℕ :=
  if item ≠ layer then fun s => if s = item then 0 else st s
  else fun s => if s = layer then 1 else st s

/-- Embedding of `set_layer_as_preferred` (source lines 64-73): iterate over
the scene's layer list (`get_all_layers()`, passed here as `layers`) and set
`preferred=0` on every layer other than `layer`, `preferred=1` on `layer`. -/
def set_layer_as_preferred (layers : List String) (layer : String)
    (st : String → ℕ) : String → ℕ :=
  layers.foldl (apply_pref layer) st

/-- One iteration of the redistribution loop of `adjustment_blend_object`
(source lines 123-133).  The accumulator is `(written keys, previous_value)`
and `iv` is one `enumerate(frac_values)` element `(index, value)`.
`span_values[index]` is modelled as `getD` with default `(0, 0)` (claim C9
shows the index is always in bounds). -/
def redistribute_step (start_value stop_value total_pose_layer_change : ℚ)
    (span_values : List (ℚ × ℚ)) (acc : List (ℚ × ℚ) × ℚ)
    (iv : ℕ × ℚ × ℚ) : List (ℚ × ℚ) × ℚ :=
  let value_delta := total_pose_layer_change * iv.2.2
  let base_value := (span_values.getD iv.1 (0, 0)).2
  let current_value :=
    if stop_value > start_value then acc.2 + value_delta
    else acc.2 - value_delta
  (acc.1 ++ [(iv.2.1, current_value + base_value)], current_value)

/-- The redistribution loop of `adjustment_blend_object` for one key pair
(source lines 120-133): `total_pose_layer_change = abs(stop_value -
start_value)`, `previous_value = start_value`, then fold over
`enumerate(frac_values)`.  Returns the list of written `(time, value)` keys
and the final `previous_value`. -/
def redistribute_full (start_value stop_value : ℚ)
    (span_values : List (ℚ × ℚ)) : List (ℚ × ℚ) × ℚ :=
  (get_change_values_frac span_values).1.enum.foldl
    (redistribute_step start_value stop_value
      (|stop_value - start_value|) span_values)
    ([], start_value)

/-- The keyframes written by the redistribution loop for one key pair. -/
def redistribute (start_value stop_value : ℚ)
    (span_values : List (ℚ × ℚ)) : List (ℚ × ℚ) :=
  (redistribute_full start_value stop_value span_values).1

/-- The whole per-key-pair body of `adjustment_blend_object` (source lines
109-133): sample the base layer over the pair's timespan, then run the
redistribution loop on it. -/
def process_key_pair (evalBase : ℚ → ℚ) (kp : KeyPair) : List (ℚ × ℚ) :=
  redistribute kp.start_value kp.stop_value
    (evaluate_key_values_for_key_pair_timespan evalBase kp.start_time
      kp.stop_time)

/-- The `for key_pair in key_pair_list` loop of `adjustment_blend_object`
(source lines 109-133), returning per key pair the list of keyframes the
redistribution writes for it. -/
def adjustment_blend_object (evalBase : ℚ → ℚ)
    (key_pair_list : List KeyPair) : List (List (ℚ × ℚ)) :=
  key_pair_list.map (process_key_pair evalBase)

/-- Python truthiness of an optional string (`if not character`,
`if character`): `None` and the empty string are falsy. -/
def py_truthy : Option String → Bool
  | none => false
  | some s => s ≠ ""

/-- Observable outcome of `adjustment_blend_character`: the warnings emitted
through `om.MGlobal.displayWarning` and the objects passed to
`adjustment_blend_object`. -/
structure CharBlendResult where
  warnings : List String
  blended_objects : List String
deriving DecidableEq

/-- The warning text of source lines 150 and 152. -/
def no_layer_warning : String :=
  "No additive layer found. Adjustment blending affects interpolation between keys on the topmost additive layer."

/-- Embedding of `adjustment_blend_character` (source lines 136-152).
`scene_characters` models `cmds.ls(type='character')`, `character_members`
models `cmds.character(name, query=True)` (`none` for Maya's `None`),
`layers` models `get_all_layers()`.  Indexing `[0]` into an empty list is
Python's `IndexError`, modelled as `Except.error`. -/
def adjustment_blend_character (scene_characters : List String)
    (character_members : String → Option (List String))
    (layers : List String) (character : Option String) :
    Except String CharBlendResult :=
  let resolved : Except String (Option String) :=
    if py_truthy character then Except.ok character
    else
      match scene_characters with
      | [] => Except.error "IndexError: list index out of range"
      | c :: _ => Except.ok (some c)
  match resolved with
  | Except.error e => Except.error e
  | Except.ok ch =>
    if py_truthy ch then
      match character_members (ch.getD "") with
      | some objs =>
        if objs.isEmpty then Except.ok ⟨[no_layer_warning], []⟩
        else if layers.length > 1 then
          Except.ok ⟨[], objs.filter (fun o => o ≠ "")⟩
        else Except.ok ⟨[], []⟩
      | none => Except.ok ⟨[no_layer_warning], []⟩
    else Except.ok ⟨[no_layer_warning], []⟩

/-! ### Helper lemmas: list indexing -/

lemma getD_map_of_lt {α β : Type*} (f : α → β) (d : α) (d' : β) (l : List α) :
    ∀ i : ℕ, i < l.length → (l.map f).getD i d' = f (l.getD i d) := by
  induction l with
  | nil => intro i h; simp at h
  | cons a t ih =>
    intro i h
    cases i with
    | zero => rfl
    | succ j =>
      simp only [List.map_cons, List.getD_cons_succ]
      exact ih j (by simpa using h)

lemma getD_zip_of_lt {α β : Type*} (d₁ : α) (d₂ : β) (d : α × β)
    (l₁ : List α) :
    ∀ (l₂ : List β) (i : ℕ), i < l₁.length → i < l₂.length →
      (l₁.zip l₂).getD i d = (l₁.getD i d₁, l₂.getD i d₂) := by
  induction l₁ with
  | nil => intro l₂ i h _; simp at h
  | cons a t ih =>
    intro l₂ i h1 h2
    cases l₂ with
    | nil => simp at h2
    | cons b t₂ =>
      cases i with
      | zero => rfl
      | succ j =>
        simp only [List.zip_cons_cons, List.getD_cons_succ]
        exact ih t₂ j (by simpa using h1) (by simpa using h2)

lemma getD_tail {α : Type*} (l : List α) (i : ℕ) (d : α) :
    l.tail.getD i d = l.getD (i + 1) d := by
  cases l with
  | nil => simp [List.getD]
  | cons a t => rfl

lemma sum_map_div (l : List ℚ) (t : ℚ) :
    (l.map fun x => x / t).sum = l.sum / t := by
  induction l with
  | nil => simp
  | cons a l ih => simp [ih, add_div]

/-! ### Helper lemmas: the change-fraction calculator -/

lemma change_values_length (span_values : List (ℚ × ℚ))
    (h : span_values ≠ []) :
    (change_values span_values).length = span_values.length := by
  have h0 : span_values.length ≠ 0 := by
    simpa using fun he => h (List.length_eq_zero.mp he)
  simp only [change_values, List.length_cons, List.length_map,
    List.length_zip, List.length_tail]
  omega

lemma span_ne_nil_of_total_ne_zero (span_values : List (ℚ × ℚ))
    (h : (change_values span_values).sum ≠ 0) : span_values ≠ [] := by
  intro he
  subst he
  simp [change_values] at h

lemma gcvf_snd (span_values : List (ℚ × ℚ)) :
    (get_change_values_frac span_values).2 = (change_values span_values).sum :=
  rfl

lemma gcvf_fst_of_ne (span_values : List (ℚ × ℚ))
    (h : (change_values span_values).sum ≠ 0) :
    (get_change_values_frac span_values).1
      = (span_values.zip (change_values span_values)).map
          fun p => (p.1.1, p.2 / (change_values span_values).sum) := by
  show (if (change_values span_values).sum ≠ 0 then _ else []) = _
  rw [if_pos h]

lemma frac_length (span_values : List (ℚ × ℚ))
    (h : (change_values span_values).sum ≠ 0) :
    (get_change_values_frac span_values).1.length = span_values.length := by
  have hne := span_ne_nil_of_total_ne_zero span_values h
  rw [gcvf_fst_of_ne span_values h]
  simp [List.length_zip, change_values_length span_values hne]

lemma map_snd_frac_div (l₁ : List (ℚ × ℚ)) (l₂ : List ℚ) (t : ℚ) :
    ∀ _ : l₂.length ≤ l₁.length,
      ((l₁.zip l₂).map fun p => (p.1.1, p.2 / t)).map Prod.snd
        = l₂.map fun x => x / t := by
  induction l₁ generalizing l₂ with
  | nil =>
    intro h
    have : l₂ = [] := List.length_eq_zero.mp (Nat.le_zero.mp (by simpa using h))
    simp [this]
  | cons a t₁ ih =>
    intro h
    cases l₂ with
    | nil => simp
    | cons b t₂ =>
      simp only [List.zip_cons_cons, List.map_cons]
      rw [ih t₂ (by simpa using h)]

/-- C2: for every SpanSample sequence whose total absolute per-step change
(the second component returned by `get_change_values_frac`) is non-zero, the
returned fraction sequence is non-empty and its fractions sum to exactly 1
(exact rational arithmetic). -/
theorem claim_C2 (span_values : List (ℚ × ℚ))
    (h : (get_change_values_frac span_values).2 ≠ 0) :
    (get_change_values_frac span_values).1 ≠ [] ∧
    ((get_change_values_frac span_values).1.map Prod.snd).sum = 1 := by
  rw [gcvf_snd] at h
  have hne := span_ne_nil_of_total_ne_zero span_values h
  constructor
  · have hlen := frac_length span_values h
    intro hnil
    rw [hnil] at hlen
    exact hne (List.length_eq_zero.mp hlen.symm)
  · rw [gcvf_fst_of_ne span_values h,
      map_snd_frac_div span_values (change_values span_values) _
        (change_values_length span_values hne).le,
      sum_map_div, div_self h]

/-- C2 witness: a concrete non-degenerate span. -/
theorem claim_C2_witness :
    (get_change_values_frac [((0:ℚ), (0:ℚ)), ((1:ℚ), (1:ℚ))]).2 ≠ 0 ∧
    ((get_change_values_frac [((0:ℚ), (0:ℚ)), ((1:ℚ), (1:ℚ))]).1 ≠ [] ∧
      ((get_change_values_frac
        [((0:ℚ), (0:ℚ)), ((1:ℚ), (1:ℚ))]).1.map Prod.snd).sum = 1) :=
  ⟨by norm_num [get_change_values_frac, change_values],
   claim_C2 _ (by norm_num [get_change_values_frac, change_values])⟩

/-- C9: for every SpanSample sequence with non-zero total change, the
FracSample sequence has the same length as the span sequence, every index of
the frac sequence is in bounds for `span_values` (so `span_values[index]` in
the redistribution loop never goes out of range), element `i` carries the
same time as span element `i`, and the first element carries fraction 0. -/
theorem claim_C9 (span_values : List (ℚ × ℚ))
    (h : (get_change_values_frac span_values).2 ≠ 0) :
    (get_change_values_frac span_values).1.length = span_values.length ∧
    (∀ i : ℕ, i < (get_change_values_frac span_values).1.length →
      i < span_values.length ∧
      ((get_change_values_frac span_values).1.getD i (0, 0)).1
        = (span_values.getD i (0, 0)).1) ∧
    ((get_change_values_frac span_values).1.getD 0 (0, 0)).2 = 0 := by
  rw [gcvf_snd] at h
  have hne := span_ne_nil_of_total_ne_zero span_values h
  have hlen := frac_length span_values h
  have hcv := change_values_length span_values hne
  have hpos : 0 < span_values.length := List.length_pos.mpr hne
  refine ⟨hlen, fun i hi => ?_, ?_⟩
  · have hi' : i < span_values.length := hlen ▸ hi
    refine ⟨hi', ?_⟩
    rw [gcvf_fst_of_ne span_values h,
      getD_map_of_lt _ ((0, 0), 0) _ _ i
        (by rw [List.length_zip]; omega),
      getD_zip_of_lt (0, 0) 0 _ _ _ i hi' (by omega)]
  · rw [gcvf_fst_of_ne span_values h]
    cases span_values with
    | nil => exact absurd rfl hne
    | cons a t => simp [change_values]

/-- C9 witness: a concrete non-degenerate span. -/
theorem claim_C9_witness :
    (get_change_values_frac [((0:ℚ), (0:ℚ)), ((1:ℚ), (1:ℚ))]).2 ≠ 0 ∧
    ((get_change_values_frac [((0:ℚ), (0:ℚ)), ((1:ℚ), (1:ℚ))]).1.length
        = ([((0:ℚ), (0:ℚ)), ((1:ℚ), (1:ℚ))] : List (ℚ × ℚ)).length ∧
      (∀ i : ℕ,
        i < (get_change_values_frac
          [((0:ℚ), (0:ℚ)), ((1:ℚ), (1:ℚ))]).1.length →
        i < ([((0:ℚ), (0:ℚ)), ((1:ℚ), (1:ℚ))] : List (ℚ × ℚ)).length ∧
        ((get_change_values_frac
            [((0:ℚ), (0:ℚ)), ((1:ℚ), (1:ℚ))]).1.getD i (0, 0)).1
          = (([((0:ℚ), (0:ℚ)), ((1:ℚ), (1:ℚ))] :
              List (ℚ × ℚ)).getD i (0, 0)).1) ∧
      ((get_change_values_frac
          [((0:ℚ), (0:ℚ)), ((1:ℚ), (1:ℚ))]).1.getD 0 (0, 0)).2 = 0) :=
  ⟨by norm_num [get_change_values_frac, change_values],
   claim_C9 _ (by norm_num [get_change_values_frac, change_values])⟩

/-! ### Helper lemmas: the redistribution loop -/

lemma redistribute_foldl_snd (start_value stop_value tp : ℚ)
    (span_values : List (ℚ × ℚ)) (l : List (ℕ × ℚ × ℚ)) :
    ∀ (w : List (ℚ × ℚ)) (acc : ℚ),
      (l.foldl (redistribute_step start_value stop_value tp span_values)
          (w, acc)).2
        = acc + (if stop_value > start_value then 1 else -1) * tp
            * (l.map fun iv => iv.2.2).sum := by
  induction l with
  | nil => intro w acc; simp
  | cons a t ih =>
    intro w acc
    simp only [List.foldl_cons, List.map_cons, List.sum_cons,
      redistribute_step]
    rw [ih]
    by_cases hc : stop_value > start_value
    · simp only [if_pos hc]; ring
    · simp only [if_neg hc]; ring

lemma enum_snd_sum (l : List (ℚ × ℚ)) :
    (l.enum.map fun iv => iv.2.2).sum = (l.map Prod.snd).sum := by
  have h1 : (l.enum.map fun iv => iv.2.2)
      = (l.enum.map Prod.snd).map Prod.snd := by
    rw [List.map_map]; rfl
  rw [h1, List.enum_map_snd]

lemma redistribute_foldl_zero_tp (v : ℚ) (span_values : List (ℚ × ℚ))
    (l : List (ℕ × ℚ × ℚ)) :
    ∀ (w : List (ℚ × ℚ)) (acc : ℚ),
      l.foldl (redistribute_step v v 0 span_values) (w, acc)
        = (w ++ l.map
            (fun iv => (iv.2.1, acc + (span_values.getD iv.1 (0, 0)).2)),
           acc) := by
  induction l with
  | nil => intro w acc; simp
  | cons a t ih =>
    intro w acc
    simp only [List.foldl_cons, redistribute_step, List.map_cons,
      gt_iff_lt, lt_self_iff_false, if_false, zero_mul, sub_zero]
    rw [ih]
    simp [List.append_assoc]

lemma redistribute_full_self (v : ℚ) (span_values : List (ℚ × ℚ)) :
    redistribute_full v v span_values
      = ((get_change_values_frac span_values).1.enum.map
          (fun iv => (iv.2.1, v + (span_values.getD iv.1 (0, 0)).2)), v) := by
  have h := redistribute_foldl_zero_tp v span_values
    (get_change_values_frac span_values).1.enum [] v
  rw [List.nil_append] at h
  calc redistribute_full v v span_values
      = (get_change_values_frac span_values).1.enum.foldl
          (redistribute_step v v 0 span_values) ([], v) := by
        rw [show redistribute_full v v span_values
            = (get_change_values_frac span_values).1.enum.foldl
                (redistribute_step v v (|v - v|) span_values)
                ([], v) from rfl]
        rw [show |v - v| = (0:ℚ) by simp]
    _ = _ := h

/-- C1: for every key pair whose FracSample sequence is non-empty and whose
fractions sum to 1, the redistribution loop's accumulated `previous_value`
after the final iteration equals `stop_value`, and the sum of the
`direction * value_delta` increments (final accumulator minus
`start_value`) equals `|stop_value - start_value|` signed `+1` when
`stop_value > start_value` and `-1` otherwise. -/
theorem claim_C1 (start_value stop_value : ℚ)
    (span_values : List (ℚ × ℚ))
    (hne : (get_change_values_frac span_values).1 ≠ [])
    (hsum : ((get_change_values_frac span_values).1.map Prod.snd).sum = 1) :
    (redistribute_full start_value stop_value span_values).2 = stop_value ∧
    (redistribute_full start_value stop_value span_values).2 - start_value
      = (if stop_value > start_value then 1 else -1)
          * |stop_value - start_value| := by
  have h : (redistribute_full start_value stop_value span_values).2
      = start_value + (if stop_value > start_value then 1 else -1)
          * |stop_value - start_value|
          * ((get_change_values_frac span_values).1.enum.map
              fun iv => iv.2.2).sum :=
    redistribute_foldl_snd start_value stop_value
      (|stop_value - start_value|) span_values
      (get_change_values_frac span_values).1.enum [] start_value
  rw [enum_snd_sum, hsum, mul_one] at h
  constructor
  · rw [h]
    by_cases hc : stop_value > start_value
    · rw [if_pos hc, abs_of_pos (sub_pos.mpr hc)]; ring
    · rw [if_neg hc, abs_of_nonpos (sub_nonpos.mpr (not_lt.mp hc))]; ring
  · rw [h]; ring

/-- C1 witness: `start_value = 0`, `stop_value = 10` over a concrete span;
the increments sum to 10 and the accumulator finishes at 10. -/
theorem claim_C1_witness :
    (get_change_values_frac [((0:ℚ), (0:ℚ)), ((1:ℚ), (1:ℚ))]).1 ≠ [] ∧
    ((get_change_values_frac
        [((0:ℚ), (0:ℚ)), ((1:ℚ), (1:ℚ))]).1.map Prod.snd).sum = 1 ∧
    ((redistribute_full 0 10 [((0:ℚ), (0:ℚ)), ((1:ℚ), (1:ℚ))]).2 = 10 ∧
      (redistribute_full 0 10 [((0:ℚ), (0:ℚ)), ((1:ℚ), (1:ℚ))]).2 - 0
        = (if (10:ℚ) > 0 then 1 else -1) * |(10:ℚ) - 0|) :=
  ⟨by simp [get_change_values_frac, change_values],
   by norm_num [get_change_values_frac, change_values],
   claim_C1 0 10 _
     (by simp [get_change_values_frac, change_values])
     (by norm_num [get_change_values_frac, change_values])⟩

/-- C6 counterexample: for `stop_value = start_value = 5` over the span
`[(0, 0), (1, 1)]` (whose base layer moves), the redistribution is NOT
descending: the written pose values ascend (`[5, 6]`) and the accumulated
`previous_value` never drops below `start_value` (it ends at exactly 5). -/
theorem claim_C6_counterexample :
    redistribute (5:ℚ) 5 [((0:ℚ), (0:ℚ)), ((1:ℚ), (1:ℚ))]
      = [(0, 5), (1, 6)] ∧
    ¬ ((redistribute_full (5:ℚ) 5 [((0:ℚ), (0:ℚ)), ((1:ℚ), (1:ℚ))]).2
        < 5) := by
  constructor
  · norm_num only [redistribute, redistribute_full, redistribute_step,
      get_change_values_frac, change_values, List.enum, List.enumFrom,
      List.zip_cons_cons, List.tail_cons, List.map_cons, List.map_nil,
      List.zip_nil_right, List.sum_cons, List.sum_nil, List.foldl_cons,
      List.foldl_nil, List.getD_cons_zero, List.getD_cons_succ,
      List.cons_append, List.nil_append, abs_one, abs_zero, sub_self,
      sub_zero, add_zero, zero_add, mul_one, mul_zero, one_mul, zero_div,
      if_true, if_false, ite_true, ite_false]
  · rw [redistribute_full_self]
    exact lt_irrefl 5

/-- C6 (amended): when `stop_value == start_value` the strict
`stop_value > start_value` test fails, so the subtracting (descending)
branch is taken; but because `total_pose_layer_change = 0` every
`value_delta` is zero, so the redistribution is constant in the pose
component rather than descending: the accumulated `previous_value` equals
`start_value` after the loop. -/
theorem claim_C6 (v : ℚ) (span_values : List (ℚ × ℚ)) :
    ¬ (v > v) ∧ (redistribute_full v v span_values).2 = v :=
  ⟨lt_irrefl v, by rw [redistribute_full_self]⟩

/-- C10: for every key pair with `stop_value == start_value`, every
keyframe written by the redistribution loop has value exactly
`start_value + span_values[index].value`: the pose delta is zero at every
iteration because `total_pose_layer_change = 0`, regardless of the negative
direction branch. -/
theorem claim_C10 (start_value : ℚ) (span_values : List (ℚ × ℚ)) :
    redistribute start_value start_value span_values
      = (get_change_values_frac span_values).1.enum.map
          (fun iv =>
            (iv.2.1, start_value + (span_values.getD iv.1 (0, 0)).2)) := by
  show (redistribute_full start_value start_value span_values).1 = _
  rw [redistribute_full_self]

/-! ### Helper lemmas: preferred-layer bookkeeping -/

lemma apply_pref_same (layer : String) (st : String → ℕ) (a : String) :
    apply_pref layer st a a = if a = layer then 1 else 0 := by
  by_cases h : a = layer
  · simp [apply_pref, h]
  · simp [apply_pref, h]

lemma apply_pref_ne (layer : String) (st : String → ℕ) (a s : String)
    (h : s ≠ a) : apply_pref layer st a s = st s := by
  by_cases ha : a = layer
  · subst ha
    simp [apply_pref, h]
  · simp [apply_pref, ha, h]

lemma set_layer_foldl (layer : String) (layers : List String) :
    ∀ (st : String → ℕ) (s : String),
      set_layer_as_preferred layers layer st s
        = if s ∈ layers then (if s = layer then 1 else 0) else st s := by
  induction layers with
  | nil => intro st s; simp [set_layer_as_preferred]
  | cons a t ih =>
    intro st s
    have hstep : set_layer_as_preferred (a :: t) layer st
        = set_layer_as_preferred t layer (apply_pref layer st a) := rfl
    rw [hstep, ih]
    by_cases hs : s ∈ t
    · simp [hs, List.mem_cons]
    · rw [if_neg hs]
      by_cases hsa : s = a
      · subst hsa
        rw [apply_pref_same, if_pos (List.mem_cons_self s t)]
      · rw [apply_pref_ne layer st a s hsa,
          if_neg (by simp [List.mem_cons, hsa, hs])]

/-- C7: after `set_layer_as_preferred(layer)` (with `layer` one of the
scene's layers), the argument layer's `preferred` flag is 1, every other
layer of the scene is explicitly set to `preferred = 0`, and a scene layer
has `preferred = 1` exactly when it is the argument layer. -/
theorem claim_C7 (layers : List String) (layer : String) (st : String → ℕ)
    (h : layer ∈ layers) :
    set_layer_as_preferred layers layer st layer = 1 ∧
    (∀ s ∈ layers, s ≠ layer →
      set_layer_as_preferred layers layer st s = 0) ∧
    (∀ s ∈ layers,
      (set_layer_as_preferred layers layer st s = 1 ↔ s = layer)) := by
  refine ⟨?_, ?_, ?_⟩
  · rw [set_layer_foldl]
    simp [h]
  · intro s hs hne
    rw [set_layer_foldl]
    simp [hs, hne]
  · intro s hs
    rw [set_layer_foldl]
    by_cases hne : s = layer
    · subst hne
      simp [hs]
    · simp [hs, hne]

/-- C7 witness: a two-layer scene, preferring the additive layer. -/
theorem claim_C7_witness :
    ("AnimLayer1" ∈ ["BaseAnimation", "AnimLayer1"]) ∧
    (set_layer_as_preferred ["BaseAnimation", "AnimLayer1"] "AnimLayer1"
        (fun _ => 0) "AnimLayer1" = 1 ∧
      (∀ s ∈ ["BaseAnimation", "AnimLayer1"], s ≠ "AnimLayer1" →
        set_layer_as_preferred ["BaseAnimation", "AnimLayer1"] "AnimLayer1"
          (fun _ => 0) s = 0) ∧
      (∀ s ∈ ["BaseAnimation", "AnimLayer1"],
        (set_layer_as_preferred ["BaseAnimation", "AnimLayer1"] "AnimLayer1"
          (fun _ => 0) s = 1 ↔ s = "AnimLayer1"))) :=
  ⟨by simp, claim_C7 _ _ _ (by simp)⟩

/-! ### Helper lemmas: key-pair segmentation -/

/-- C8: for every keyframe-time list `keys`, `get_key_pairs_from_keys`
returns exactly `len(keys) - 1` key pairs, and pair `i` is
`(keys[i], keys[i+1], eval(keys[i]), eval(keys[i+1]))`, the evaluation
function being the pose-layer-preferred evaluator. -/
theorem claim_C8 (evalPose : ℚ → ℚ) (keys : List ℚ)
    (h : 2 ≤ keys.length) :
    (get_key_pairs_from_keys evalPose keys).length = keys.length - 1 ∧
    ∀ i : ℕ, i < keys.length - 1 →
      (get_key_pairs_from_keys evalPose keys).getD i ⟨0, 0, 0, 0⟩
        = ⟨keys.getD i 0, keys.getD (i + 1) 0,
            evalPose (keys.getD i 0), evalPose (keys.getD (i + 1) 0)⟩ := by
  constructor
  · simp only [get_key_pairs_from_keys, List.length_map, List.length_zip,
      List.length_tail]
    omega
  · intro i hi
    have h1 : i < keys.length := by omega
    have h2 : i < keys.tail.length := by rw [List.length_tail]; omega
    have hz : i < (keys.zip keys.tail).length := by
      rw [List.length_zip]; omega
    simp only [get_key_pairs_from_keys]
    rw [getD_map_of_lt _ (0, 0) _ _ i hz,
      getD_zip_of_lt 0 0 _ _ _ i h1 h2, getD_tail]

/-- C8 witness: three keys produce two key pairs with the evaluated
endpoint values. -/
theorem claim_C8_witness :
    2 ≤ ([(0:ℚ), 1, 2] : List ℚ).length ∧
    ((get_key_pairs_from_keys (fun t => t + 1) [(0:ℚ), 1, 2]).length
        = ([(0:ℚ), 1, 2] : List ℚ).length - 1 ∧
      ∀ i : ℕ, i < ([(0:ℚ), 1, 2] : List ℚ).length - 1 →
        (get_key_pairs_from_keys (fun t => t + 1)
            [(0:ℚ), 1, 2]).getD i ⟨0, 0, 0, 0⟩
          = ⟨([(0:ℚ), 1, 2] : List ℚ).getD i 0,
              ([(0:ℚ), 1, 2] : List ℚ).getD (i + 1) 0,
              (fun t => t + 1) (([(0:ℚ), 1, 2] : List ℚ).getD i 0),
              (fun t => t + 1)
                (([(0:ℚ), 1, 2] : List ℚ).getD (i + 1) 0)⟩) :=
  ⟨by norm_num, claim_C8 _ _ (by norm_num)⟩

/-- C5 (evidence of the code bug): invoking `adjustment_blend_character`
with no character argument while the scene has no character raises an
`IndexError` at `cmds.ls(type='character')[0]` instead of emitting the
warning of source line 152 (that `else` branch is unreachable): the model
returns the error, not a warning. -/
theorem claim_C5 :
    adjustment_blend_character [] (fun _ => none) ["BaseAnimation"] none
      = Except.error "IndexError: list index out of range" := rfl

/-! ### Helper lemmas: the fixed-step sampler -/

lemma span_loop_nil (e : ℚ → ℚ) (stop_time current : ℚ)
    (h : stop_time < current) : span_loop e stop_time current = [] := by
  rw [span_loop]
  exact dif_pos h

lemma span_loop_cons (e : ℚ → ℚ) (stop_time current : ℚ)
    (h : current ≤ stop_time) :
    span_loop e stop_time current
      = (current, e current) :: span_loop e stop_time (current + 1/5) := by
  conv_lhs => rw [span_loop]
  rw [dif_neg (not_lt.mpr h)]

lemma span_loop_closed (e : ℚ → ℚ) (stop_time : ℚ) :
    ∀ (n : ℕ) (start_time : ℚ), start_time ≤ stop_time →
      (⌊(stop_time - start_time) * 5⌋).toNat = n →
      span_loop e stop_time start_time
        = (List.range (n + 1)).map
            (fun i : ℕ => (start_time + (i:ℚ) * (1/5),
              e (start_time + (i:ℚ) * (1/5)))) := by
  intro n
  induction n with
  | zero =>
    intro start hle hn
    have h0 : (0:ℤ) ≤ ⌊(stop_time - start) * 5⌋ :=
      Int.floor_nonneg.mpr (mul_nonneg (sub_nonneg.mpr hle) (by norm_num))
    have hflr : ⌊(stop_time - start) * 5⌋ = 0 := by omega
    have hlt : stop_time < start + 1/5 := by
      have h2 := Int.lt_floor_add_one ((stop_time - start) * 5)
      rw [hflr] at h2
      push_cast at h2
      linarith
    rw [span_loop_cons e stop_time start hle,
      span_loop_nil e stop_time _ hlt]
    rw [show List.range 1 = [0] from rfl]
    norm_num
  | succ n ih =>
    intro start hle hn
    have h0 : (0:ℤ) ≤ ⌊(stop_time - start) * 5⌋ :=
      Int.floor_nonneg.mpr (mul_nonneg (sub_nonneg.mpr hle) (by norm_num))
    have hflr : ⌊(stop_time - start) * 5⌋ = (n:ℤ) + 1 := by omega
    have hnext : ⌊(stop_time - (start + 1/5)) * 5⌋ = (n:ℤ) := by
      rw [show (stop_time - (start + 1/5)) * 5
          = (stop_time - start) * 5 - 1 by ring,
        Int.floor_sub_one, hflr]
      ring
    have hle2 : start + 1/5 ≤ stop_time := by
      have hfl := Int.floor_le ((stop_time - start) * 5)
      rw [hflr] at hfl
      push_cast at hfl
      have hn0 : (0:ℚ) ≤ (n:ℚ) := Nat.cast_nonneg n
      linarith
    have hn2 : (⌊(stop_time - (start + 1/5)) * 5⌋).toNat = n := by
      rw [hnext]
      simp
    rw [span_loop_cons e stop_time start hle, ih (start + 1/5) hle2 hn2]
    conv_rhs => rw [List.range_succ_eq_map, List.map_cons, List.map_map]
    congr 1
    · norm_num
    · refine List.map_congr_left fun i _ => ?_
      simp only [Function.comp_apply, Nat.succ_eq_add_one]
      have hq : start + 1/5 + (i:ℚ) * (1/5)
          = start + ((i + 1 : ℕ) : ℚ) * (1/5) := by
        push_cast
        ring
      rw [hq]

lemma span_closed (e : ℚ → ℚ) (start_time stop_time : ℚ)
    (h : start_time ≤ stop_time) :
    evaluate_key_values_for_key_pair_timespan e start_time stop_time
      = (List.range ((⌊(stop_time - start_time) * 5⌋).toNat + 1)).map
          (fun i : ℕ => (start_time + (i:ℚ) * (1/5),
            e (start_time + (i:ℚ) * (1/5)))) :=
  span_loop_closed e stop_time _ start_time h rfl

lemma floor_toNat_cast (x : ℚ) (h : (0:ℤ) ≤ ⌊x⌋) :
    ((⌊x⌋.toNat : ℕ) : ℚ) = (⌊x⌋ : ℚ) := by
  exact_mod_cast congrArg (fun z : ℤ => (z : ℚ)) (Int.toNat_of_nonneg h)

/-- C4: for every interval with `start_time ≤ stop_time`, the sampler
produces exactly the samples at times `start_time + i * 0.2` for
`i = 0, ..., ⌊(stop_time - start_time) * 5⌋` (each paired with the curve
value at that time, in strictly increasing time order), every produced time
is at most `stop_time`, and the first generated time beyond them exceeds
`stop_time` (so it terminates the loop and is not included, and the last
sample is not snapped to `stop_time`). -/
theorem claim_C4 (e : ℚ → ℚ) (start_time stop_time : ℚ)
    (h : start_time ≤ stop_time) :
    evaluate_key_values_for_key_pair_timespan e start_time stop_time
      = (List.range ((⌊(stop_time - start_time) * 5⌋).toNat + 1)).map
          (fun i : ℕ => (start_time + (i:ℚ) * (1/5),
            e (start_time + (i:ℚ) * (1/5)))) ∧
    (∀ p ∈ evaluate_key_values_for_key_pair_timespan e start_time stop_time,
      p.1 ≤ stop_time) ∧
    stop_time < start_time
      + (((⌊(stop_time - start_time) * 5⌋).toNat + 1 : ℕ) : ℚ) * (1/5) ∧
    List.Pairwise (· < ·)
      ((evaluate_key_values_for_key_pair_timespan
          e start_time stop_time).map Prod.fst) := by
  have h0 : (0:ℤ) ≤ ⌊(stop_time - start_time) * 5⌋ :=
    Int.floor_nonneg.mpr (mul_nonneg (sub_nonneg.mpr h) (by norm_num))
  have hc : ((⌊(stop_time - start_time) * 5⌋.toNat : ℕ) : ℚ)
      ≤ (stop_time - start_time) * 5 := by
    rw [floor_toNat_cast _ h0]
    exact Int.floor_le _
  refine ⟨span_closed e start_time stop_time h, ?_, ?_, ?_⟩
  · intro p hp
    rw [span_closed e start_time stop_time h] at hp
    obtain ⟨i, hi, rfl⟩ := List.mem_map.mp hp
    have hi' : (i:ℚ) ≤ ((⌊(stop_time - start_time) * 5⌋.toNat : ℕ) : ℚ) := by
      exact_mod_cast Nat.lt_succ_iff.mp (List.mem_range.mp hi)
    have hiq : (i:ℚ) ≤ (stop_time - start_time) * 5 := le_trans hi' hc
    have := mul_le_mul_of_nonneg_right hiq (by norm_num : (0:ℚ) ≤ 1/5)
    show start_time + (i:ℚ) * (1/5) ≤ stop_time
    linarith
  · have hlt := Int.lt_floor_add_one ((stop_time - start_time) * 5)
    have h2 := floor_toNat_cast ((stop_time - start_time) * 5) h0
    push_cast
    push_cast at h2
    linarith
  · rw [span_closed e start_time stop_time h, List.map_map]
    refine List.Pairwise.map _ (fun a b hab => ?_)
      (List.pairwise_lt_range _)
    simp only [Function.comp_apply]
    have hab' : (a:ℚ) < (b:ℚ) := by exact_mod_cast hab
    show start_time + (a:ℚ) * (1/5) < start_time + (b:ℚ) * (1/5)
    have := mul_lt_mul_of_pos_right hab' (by norm_num : (0:ℚ) < 1/5)
    linarith

/-- C4 witness: sampling the interval `[0, 2/5]` (exactly two steps). -/
theorem claim_C4_witness :
    (0:ℚ) ≤ 2/5 ∧
    (evaluate_key_values_for_key_pair_timespan (fun t => t) 0 (2/5)
        = (List.range ((⌊((2:ℚ)/5 - 0) * 5⌋).toNat + 1)).map
            (fun i : ℕ => ((0:ℚ) + (i:ℚ) * (1/5),
              (fun t : ℚ => t) ((0:ℚ) + (i:ℚ) * (1/5)))) ∧
      (∀ p ∈ evaluate_key_values_for_key_pair_timespan
          (fun t : ℚ => t) 0 (2/5), p.1 ≤ (2:ℚ)/5) ∧
      (2:ℚ)/5 < (0:ℚ)
        + (((⌊((2:ℚ)/5 - 0) * 5⌋).toNat + 1 : ℕ) : ℚ) * (1/5) ∧
      List.Pairwise (· < ·)
        ((evaluate_key_values_for_key_pair_timespan
            (fun t : ℚ => t) 0 (2/5)).map Prod.fst)) :=
  ⟨by norm_num, claim_C4 (fun t => t) 0 (2/5) (by norm_num)⟩

/-! ### Helper lemmas: degenerate intervals -/

lemma change_sum_zero_of_const (span_values : List (ℚ × ℚ)) (c : ℚ)
    (h : ∀ p ∈ span_values, p.2 = c) :
    (change_values span_values).sum = 0 := by
  apply List.sum_eq_zero
  intro x hx
  simp only [change_values, List.mem_cons] at hx
  rcases hx with hx | hx
  · exact hx
  · obtain ⟨p, hp, rfl⟩ := List.mem_map.mp hx
    obtain ⟨a, b⟩ := p
    obtain ⟨ha, hb⟩ := List.of_mem_zip hp
    rw [h b (List.mem_of_mem_tail hb), h a ha]
    simp

lemma frac_nil_of_const (span_values : List (ℚ × ℚ)) (c : ℚ)
    (h : ∀ p ∈ span_values, p.2 = c) :
    (get_change_values_frac span_values).1 = [] := by
  have h0 := change_sum_zero_of_const span_values c h
  show (if (change_values span_values).sum ≠ 0 then _ else []) = []
  rw [if_neg (not_not_intro h0)]

lemma redistribute_nil_of_const (start_value stop_value : ℚ)
    (span_values : List (ℚ × ℚ)) (c : ℚ)
    (h : ∀ p ∈ span_values, p.2 = c) :
    redistribute start_value stop_value span_values = [] := by
  have hf := frac_nil_of_const span_values c h
  show ((get_change_values_frac span_values).1.enum.foldl
      (redistribute_step start_value stop_value
        (|stop_value - start_value|) span_values)
      ([], start_value)).1 = []
  rw [hf]
  rfl

/-- C3: a SpanSample sequence in which every value equals `c` (zero total
change) yields an empty fraction sequence, the redistribution loop writes
zero keyframes for it, and a key pair whose sampled span is constant
contributes no writes while every other key pair of the same object is
still processed exactly as it would be alone. -/
theorem claim_C3 (span_values : List (ℚ × ℚ)) (c d : ℚ)
    (h : ∀ p ∈ span_values, p.2 = c)
    (start_value stop_value : ℚ) (evalBase : ℚ → ℚ)
    (pairs : List KeyPair) (kp : KeyPair)
    (hkp : ∀ p ∈ evaluate_key_values_for_key_pair_timespan
        evalBase kp.start_time kp.stop_time, p.2 = d) :
    (get_change_values_frac span_values).1 = [] ∧
    redistribute start_value stop_value span_values = [] ∧
    adjustment_blend_object evalBase (pairs ++ [kp])
      = pairs.map (process_key_pair evalBase) ++ [[]] := by
  refine ⟨frac_nil_of_const _ c h,
    redistribute_nil_of_const _ _ _ c h, ?_⟩
  have hkp0 : process_key_pair evalBase kp = [] :=
    redistribute_nil_of_const kp.start_value kp.stop_value _ d hkp
  simp only [adjustment_blend_object, List.map_append, List.map_cons,
    List.map_nil, hkp0]

/-- C3 witness: a constant span, plus an object with one ordinary key pair
followed by a key pair whose span is degenerate. -/
theorem claim_C3_witness :
    (∀ p ∈ ([((0:ℚ), (3:ℚ)), ((1:ℚ), (3:ℚ))] : List (ℚ × ℚ)),
      p.2 = (3:ℚ)) ∧
    (∀ p ∈ evaluate_key_values_for_key_pair_timespan
        (fun _ => (0:ℚ)) (KeyPair.mk 1 0 7 7).start_time
        (KeyPair.mk 1 0 7 7).stop_time, p.2 = (0:ℚ)) ∧
    ((get_change_values_frac
        [((0:ℚ), (3:ℚ)), ((1:ℚ), (3:ℚ))]).1 = [] ∧
      redistribute 2 9 [((0:ℚ), (3:ℚ)), ((1:ℚ), (3:ℚ))] = [] ∧
      adjustment_blend_object (fun _ => (0:ℚ))
          ([KeyPair.mk 0 1 4 8] ++ [KeyPair.mk 1 0 7 7])
        = [KeyPair.mk 0 1 4 8].map (process_key_pair (fun _ => (0:ℚ)))
            ++ [[]]) := by
  have h : ∀ p ∈ ([((0:ℚ), (3:ℚ)), ((1:ℚ), (3:ℚ))] : List (ℚ × ℚ)),
      p.2 = (3:ℚ) := by
    intro p hp
    rcases List.mem_cons.mp hp with h1 | hp2
    · rw [h1]
    · rcases List.mem_cons.mp hp2 with h1 | h1
      · rw [h1]
      · exact absurd h1 (List.not_mem_nil p)
  have hkp : ∀ p ∈ evaluate_key_values_for_key_pair_timespan
      (fun _ => (0:ℚ)) (KeyPair.mk 1 0 7 7).start_time
      (KeyPair.mk 1 0 7 7).stop_time, p.2 = (0:ℚ) := by
    intro p hp
    have hnil : evaluate_key_values_for_key_pair_timespan
        (fun _ => (0:ℚ)) (KeyPair.mk 1 0 7 7).start_time
        (KeyPair.mk 1 0 7 7).stop_time = [] :=
      span_loop_nil _ _ _ (by norm_num)
    rw [hnil] at hp
    exact absurd hp (List.not_mem_nil p)
  exact ⟨h, hkp, claim_C3 _ 3 0 h 2 9 _ _ _ hkp⟩

end MayaAdjustmentBlending
